import Mathlib

/-!
Verification of the `cargo-ab-lint` workspace dependency linter
(`src/main.rs`) against its natural-language specification.

The development shallowly embeds the program:

* the semantic manifest model produced by the external manifest parser
  (`cargo_toml::Manifest`) becomes ordered association lists of
  dependency entries;
* the format-preserving document (`toml_edit::DocumentMut`) becomes a
  list of sections, each an ordered association list of keyed TOML
  values, with a flag recording whether an inline table was written
  compactly (`{k = v}`) or spaced (`{ k = v }`);
* the lint-and-fix pipeline of `main`, `lint_manifest`,
  `unused_workspace_deps`, `dependency_with_redundant_workspace_features`,
  `workspace_dependency_with_default_features_set` and
  `PackageIdExt::manifest_path` becomes pure functions; places where the
  Rust code can panic (`.unwrap()`) return `Option.none`.
-/

/-- A TOML value as it appears in a manifest document.  Inline tables
carry a `compact` flag: `true` renders `\x7bk = v\x7d`, `false` renders
`\x7b k = v \x7d`, matching the two spacings `toml_edit` preserves. -/
inductive TomlValue where
  | bool (b : Bool)
  | str (s : String)
  | array (xs : List TomlValue)
  | inlineTable (compact : Bool) (kvs : List (String × TomlValue))

/-- An ordered association table of TOML entries, as stored by
`toml_edit` for an inline table or a section body. -/
abbrev TomlTable := List (String × TomlValue)

/-- `v.as_str()` of `toml_edit`: the string payload when `v` is a string. -/
def TomlValue.asStr : TomlValue → Option String
  | TomlValue.str s => some s
  | _ => none

/-- Replace the value stored at a key in place (first occurrence), or
append the binding when the key is absent — `toml_edit`'s in-place
update of an existing entry. -/
def setEntry {α : Type} : List (String × α) → String → α → List (String × α)
  | [], k, v => [(k, v)]
  | (k1, v1) :: t, k, v =>
    if k1 = k then (k, v) :: t else (k1, v1) :: setEntry t k v

/-- `table.remove(key)` of `toml_edit`: the removed value, if any, and
the table with that binding erased. -/
def tableRemove (kvs : TomlTable) (k : String) : Option TomlValue × TomlTable :=
  match List.lookup k kvs with
  | some v => (some v, kvs.eraseP fun e => e.1 == k)
  | none => (none, kvs)

/-- A parsed manifest document: a list of sections, each a bracketed
header (for example `dependencies` or `workspace.dependencies`) with
its body of keyed values. -/
structure Doc where
  sections : List (String × TomlTable)

/-- The body of a section, empty when the section is absent —
`toml_edit` indexing creates an invisible implicit table for a missing
section, so reading through it yields no entries. -/
def Doc.getTable (d : Doc) (name : String) : TomlTable :=
  (List.lookup name d.sections).getD []

/-- Write a section's body back, keeping its position (appending when
the section did not exist). -/
def Doc.setTable (d : Doc) (name : String) (t : TomlTable) : Doc :=
  ⟨setEntry d.sections name t⟩

mutual

/-- Render a TOML value exactly as `toml_edit` re-serializes it,
including the recorded inline-table spacing. -/
def TomlValue.render : TomlValue → String
  | TomlValue.bool true => "true"
  | TomlValue.bool false => "false"
  | TomlValue.str s => "\"" ++ s ++ "\""
  | TomlValue.array xs =>
    "[" ++ String.intercalate ", " (renderValues xs) ++ "]"
  | TomlValue.inlineTable compact kvs =>
    if compact then "\x7b" ++ String.intercalate ", " (renderPairs kvs) ++ "\x7d"
    else "\x7b " ++ String.intercalate ", " (renderPairs kvs) ++ " \x7d"

/-- Render each item of an array. -/
def renderValues : List TomlValue → List String
  | [] => []
  | v :: vs => TomlValue.render v :: renderValues vs

/-- Render each `key = value` member of an inline table. -/
def renderPairs : List (String × TomlValue) → List String
  | [] => []
  | (k, v) :: kvs => (k ++ " = " ++ TomlValue.render v) :: renderPairs kvs

end

/-- Render one `key = value` line of a section body. -/
def renderEntry (kv : String × TomlValue) : String :=
  kv.1 ++ " = " ++ kv.2.render ++ "\n"

/-- Render one section: bracketed header, then its entry lines. -/
def renderSec (sec : String × TomlTable) : String :=
  "[" ++ sec.1 ++ "]\n" ++ String.join (sec.2.map renderEntry)

/-- `doc.to_string()`: the full re-serialization of the document. -/
def Doc.render (d : Doc) : String :=
  String.join (d.sections.map renderSec)

/-! ### Semantic manifest model (`cargo_toml`) -/

/-- `cargo_toml::InheritedDependencyDetail`: a `workspace = true` entry
with its extra feature list. -/
structure InheritedDependencyDetail where
  workspace : Bool
  features : List String

/-- `cargo_toml::Dependency`: a plain version string, a detailed spec
with a feature list, or an entry inherited from the workspace. -/
inductive Dependency where
  | simple (version : String)
  | detailed (features : List String)
  | inherited (d : InheritedDependencyDetail)

/-- `Dependency::req_features()`: the features the declaration itself
requires. -/
def Dependency.req_features : Dependency → List String
  | Dependency.simple _ => []
  | Dependency.detailed fs => fs
  | Dependency.inherited d => d.features

/-- `cargo_toml::Workspace`: the shared `[workspace.dependencies]`
declarations, in iteration order of the parsed dependency set. -/
structure Workspace where
  dependencies : List (String × Dependency)

/-- `cargo_toml::Manifest`: the per-file semantic model. -/
structure Manifest where
  workspace : Option Workspace
  dependencies : List (String × Dependency)
  dev_dependencies : List (String × Dependency)
  build_dependencies : List (String × Dependency)

/-! ### Findings -/

/-- The kind of a single lint finding. -/
inductive FindingKind where
  | redundantFeatures (feats : List String)
  | redundantDefaultFeaturesFlag
  | unusedSharedDependency

/-- One detected rule violation: which dependency, in which table
("dependency" or "dev-dependency"), and what kind — the data behind
each warning line the program prints. -/
structure Finding where
  dep_name : String
  item_name : String
  kind : FindingKind

/-! ### Redundancy rules (`main.rs` lines 178-252) -/

/-- The redundant feature list computed at `main.rs:213-218`: features
of the inherited entry that the workspace declaration already requires,
in the entry's declaration order. -/
def redundant_features (ws_dep : Dependency) (dep : InheritedDependencyDetail) : List String :=
  dep.features.filter fun f => ws_dep.req_features.contains f

/-- The features-array rewrite of `main.rs:232-248`: collect the
indices of array items whose string is redundant, remove them in
reverse index order, and drop the `features` key when the array
emptied. -/
def fixed_features_entry (redundant : List String) (kvs : TomlTable)
    (feats : List TomlValue) : TomlTable :=
  let rm_idx := (feats.enum.filter fun iv =>
    (TomlValue.asStr iv.2).any fun s => redundant.contains s).map Prod.fst
  let feats2 := rm_idx.reverse.foldl (fun fs idx => fs.eraseIdx idx) feats
  if feats2.isEmpty then kvs.eraseP fun e => e.1 == "features"
  else setEntry kvs "features" (TomlValue.array feats2)

/-- `dependency_with_redundant_workspace_features` (`main.rs:204-252`):
report features an inherited entry restates, and remove the matching
items (in reverse index order) from the entry's `features` array in the
document, dropping the key when the array empties.  `none` models the
`unwrap` panics when the document lacks the expected table or array. -/
def dependency_with_redundant_workspace_features (dep_name : String)
    (ws_dep : Dependency) (dep : InheritedDependencyDetail)
    (doc_deps : TomlTable) (item_name : String) :
    Option (Bool × List Finding × TomlTable) :=
  let redundant := redundant_features ws_dep dep
  if redundant.isEmpty then some (false, [], doc_deps)
  else
    match List.lookup dep_name doc_deps with
    | some (TomlValue.inlineTable compact kvs) =>
      match List.lookup "features" kvs with
      | some (TomlValue.array feats) =>
        some (true,
          [⟨dep_name, item_name, FindingKind.redundantFeatures redundant⟩],
          setEntry doc_deps dep_name
            (TomlValue.inlineTable compact (fixed_features_entry redundant kvs feats)))
      | _ => none
    | _ => none

/-- `workspace_dependency_with_default_features_set` (`main.rs:179-201`):
remove an explicit `default-features` flag from an inherited entry's
document table, trying the hyphen spelling first and — only when that
was absent — the underscore spelling, and report a finding when either
removal removed something. -/
def workspace_dependency_with_default_features_set (dep_name : String)
    (doc_deps : TomlTable) (item_name : String) :
    Bool × List Finding × TomlTable :=
  match List.lookup dep_name doc_deps with
  | some (TomlValue.inlineTable compact kvs) =>
    let r1 := tableRemove kvs "default-features"
    let step : Bool × TomlTable :=
      if r1.1.isSome then (true, r1.2)
      else
        let r2 := tableRemove r1.2 "default_features"
        (r2.1.isSome, r2.2)
    let fs :=
      if step.1 then [⟨dep_name, item_name, FindingKind.redundantDefaultFeaturesFlag⟩]
      else []
    (step.1, fs, setEntry doc_deps dep_name (TomlValue.inlineTable compact step.2))
  | _ => (false, [], doc_deps)

/-! ### The per-package lint pass (`main.rs` lines 136-176) -/

/-- One table's worth of the `lint_manifest` loop body: when the member
declares `name` as an inherited entry in the given dependency map, run
both redundancy rules against the corresponding document section. -/
def lint_dep_table (name : String) (ws_dep : Dependency)
    (mdeps : List (String × Dependency)) (tname item_name : String)
    (doc : Doc) : Option (Bool × List Finding × Doc) :=
  match List.lookup name mdeps with
  | some (Dependency.inherited dep) =>
    if dep.workspace then
      match dependency_with_redundant_workspace_features name ws_dep dep
          (doc.getTable tname) item_name with
      | some (f1, fs1, t1) =>
        let r2 := workspace_dependency_with_default_features_set name t1 item_name
        some (f1 || r2.1, fs1 ++ r2.2.1, doc.setTable tname r2.2.2)
      | none => none
    else some (false, [], doc)
  | _ => some (false, [], doc)

/-- The `lint_manifest` loop over the workspace's shared dependency
declarations: for each, check the member's normal table, then its dev
table, accumulating `has_fixes` and the warnings printed. -/
def lint_deps : List (String × Dependency) → Manifest → Doc →
    Option (Bool × List Finding × Doc)
  | [], _, doc => some (false, [], doc)
  | (name, ws_dep) :: rest, member, doc =>
    match lint_dep_table name ws_dep member.dependencies "dependencies" "dependency" doc with
    | some (a1, fs1, doc1) =>
      match lint_dep_table name ws_dep member.dev_dependencies "dev-dependencies"
          "dev-dependency" doc1 with
      | some (a2, fs2, doc2) =>
        match lint_deps rest member doc2 with
        | some (a3, fs3, doc3) => some (a1 || (a2 || a3), fs1 ++ (fs2 ++ fs3), doc3)
        | none => none
      | none => none
    | none => none

/-- `lint_manifest` (`main.rs:136-176`): whether the member needs
fixes, the findings reported, and the (possibly mutated) document. -/
def lint_manifest (root member : Manifest) (doc : Doc) :
    Option (Bool × List Finding × Doc) :=
  lint_deps ((root.workspace.map Workspace.dependencies).getD []) member doc

/-! ### Unused shared dependencies (`main.rs` lines 121-134) -/

/-- `unused_workspace_deps`: shared dependency names no member
references in any of its three dependency tables, in the shared set's
iteration order. -/
def unused_workspace_deps (root : Manifest) (members : List Manifest) : List String :=
  (((root.workspace.map Workspace.dependencies).getD []).map Prod.fst).filter fun dep =>
    !(members.any fun m =>
      (m.dependencies.map Prod.fst).contains dep ||
      (m.dev_dependencies.map Prod.fst).contains dep ||
      (m.build_dependencies.map Prod.fst).contains dep)

/-! ### Textual post-processing and serialization of fixes -/

/-- `str::replace` on character lists: replace every non-overlapping
occurrence of `pat`, scanning left to right (an empty pattern replaces
nothing, a case the program never exercises).  The extra fuel argument
only makes the recursion structural: every step consumes at least one
character, so fuel equal to the input length never runs out. -/
def replaceSubGo (pat rep : List Char) : Nat → List Char → List Char
  | 0, l => l
  | _ + 1, [] => []
  | fuel + 1, h :: t =>
    if pat ≠ [] ∧ pat.isPrefixOf (h :: t) then
      rep ++ replaceSubGo pat rep fuel (List.drop pat.length (h :: t))
    else h :: replaceSubGo pat rep fuel t

/-- `str::replace` on strings. -/
def replaceSub (s pat rep : String) : String :=
  String.mk (replaceSubGo pat.toList rep.toList s.toList.length s.toList)

/-- The two global text replacements applied to a fixed member
document's serialization (`main.rs:52-55`): restore the collapsed space
in `workspace = true\x7d`, then rewrite ` = \x7b workspace = true \x7d`
to the dotted shorthand `.workspace = true`. -/
def postProcessFixed (s : String) : String :=
  replaceSub (replaceSub s "workspace = true\x7d" "workspace = true \x7d")
    " = \x7b workspace = true \x7d" ".workspace = true"

/-- The member fix pipeline of `main` (`main.rs:48-64`): lint the
member, then serialize the mutated document and post-process the text.
`none` models a panic inside the lint pass. -/
def member_fix_text (root member : Manifest) (doc : Doc) : Option String :=
  (lint_manifest root member doc).map fun r => postProcessFixed (Doc.render r.2.2)

/-- The root fix of `main` (`main.rs:86-93`): remove each unused shared
dependency key from the `workspace.dependencies` table and serialize —
with no textual post-processing.  `none` models the `unwrap` panic when
the section is not a table. -/
def root_fix_text (root_doc : Doc) (unused : List String) : Option String :=
  match List.lookup "workspace.dependencies" root_doc.sections with
  | some t =>
    let t2 := unused.foldl (fun acc dep => (tableRemove acc dep).2) t
    some (Doc.render (root_doc.setTable "workspace.dependencies" t2))
  | none => none

/-! ### Member discovery and the driver (`main.rs` lines 8-119, 254-267) -/

/-- `str::find` for a substring: the first index at which `needle`
occurs in `hay`. -/
def findSub (hay needle : List Char) : Option Nat :=
  match hay with
  | [] => if needle = [] then some 0 else none
  | _ :: t =>
    if needle.isPrefixOf hay then some 0
    else (findSub t needle).map (· + 1)

/-- `camino::Utf8PathBuf::join` for a relative component: append with a
separator unless one is already there. -/
def joinPath (a b : String) : String :=
  if a = "" then b
  else if a.endsWith "/" then a ++ b
  else a ++ "/" ++ b

/-- `PackageIdExt::manifest_path` (`main.rs:257-267`): extract the path
after `path+file://` from a package-id representation, cut at `#`, and
append `Cargo.toml`; `none` when the marker substring is absent. -/
def manifest_path (r : String) : Option String :=
  match findSub r.toList ("path+file://".toList) with
  | none => none
  | some fidx =>
    let rest := r.toList.drop (fidx + ("path+file://".toList).length)
    let path :=
      match findSub rest ['#'] with
      | some i => rest.take i
      | none => rest
    some (joinPath (String.mk path) "Cargo.toml")

/-- The manifest the external parser produces from a feature array in a
document entry: the string items of the `features` array, if present. -/
def featuresOf (kvs : TomlTable) : List String :=
  match List.lookup "features" kvs with
  | some (TomlValue.array xs) => xs.filterMap TomlValue.asStr
  | _ => []

/-- The dependency the external manifest parser reads from one document
entry: a version string parses as a simple dependency, a table with a
boolean `workspace` key as an inherited entry, any other table as a
detailed one. -/
def absDependency : TomlValue → Dependency
  | TomlValue.str s => Dependency.simple s
  | TomlValue.inlineTable _ kvs =>
    match List.lookup "workspace" kvs with
    | some (TomlValue.bool b) => Dependency.inherited ⟨b, featuresOf kvs⟩
    | _ => Dependency.detailed (featuresOf kvs)
  | _ => Dependency.simple ""

/-- The member manifest the external parser reads from the same text
the document was parsed from: the three dependency tables, entry by
entry. -/
def absManifest (d : Doc) : Manifest where
  workspace := none
  dependencies := (d.getTable "dependencies").map fun kv => (kv.1, absDependency kv.2)
  dev_dependencies := (d.getTable "dev-dependencies").map fun kv => (kv.1, absDependency kv.2)
  build_dependencies := (d.getTable "build-dependencies").map fun kv => (kv.1, absDependency kv.2)

/-- One workspace member as the metadata service lists it: its
package-id representation and the document its manifest file parses
to. -/
structure WorkspaceMember where
  repr : String
  doc : Doc

/-- The member loop of `main` (`main.rs:33-68`): members without a
`path+file://` package id are skipped; each other member is linted, its
`has_fixes` is OR-ed into the running flag, and its parsed manifest is
collected for the unused-dependency analysis. -/
def run_members (root : Manifest) : List WorkspaceMember → Bool × List Manifest →
    Option (Bool × List Manifest)
  | [], acc => some acc
  | m :: rest, acc =>
    match manifest_path m.repr with
    | none => run_members root rest acc
    | some _ =>
      match lint_manifest root (absManifest m.doc) m.doc with
      | some (has, _, _) => run_members root rest (acc.1 || has, acc.2 ++ [absManifest m.doc])
      | none => none

/-- The accumulated `something_to_fix` flag after the member loop and
the root-level unused-dependency check (`main.rs:28-105`). -/
def something_to_fix_run (root : Manifest) (members : List WorkspaceMember) : Option Bool :=
  match run_members root members (false, []) with
  | some (stf, mans) => some (stf || !(unused_workspace_deps root mans).isEmpty)
  | none => none

/-- The process exit code of a successful run (`main.rs:107-118`): `1`
exactly when something is left to fix and `--fix` was not passed,
otherwise `0`. -/
def main_exit (fix : Bool) (root : Manifest) (members : List WorkspaceMember) : Option Nat :=
  match something_to_fix_run root members with
  | some stf => some (if !fix && stf then 1 else 0)
  | none => none

/-- Split a character list at each newline, keeping empty segments. -/
def splitLinesL : List Char → List (List Char)
  | [] => [[]]
  | h :: t =>
    if h = '\n' then [] :: splitLinesL t
    else
      match splitLinesL t with
      | [] => [[h]]
      | l :: ls => (h :: l) :: ls

/-- The lines of a text, as the line diff of `diff::lines` sees them. -/
def linesOf (s : String) : List String :=
  (splitLinesL s.toList).map String.mk

/-- Whether `pat` occurs anywhere in `s`. -/
def hasSub (s pat : String) : Bool :=
  (findSub s.toList pat.toList).isSome

/-! ### Association-table lemmas -/

theorem lookup_cons_of_ne {α : Type} (k k1 : String) (v : α) (t : List (String × α))
    (h : k ≠ k1) : List.lookup k ((k1, v) :: t) = List.lookup k t := by
  have hb : (k == k1) = false := beq_eq_false_iff_ne.mpr h
  simp [List.lookup, hb]

theorem lookup_setEntry_self {α : Type} (l : List (String × α)) (k : String) (v : α) :
    List.lookup k (setEntry l k v) = some v := by
  induction l with
  | nil => simp [setEntry]
  | cons h t ih =>
    obtain ⟨k1, v1⟩ := h
    by_cases hk : k1 = k
    · simp [setEntry, hk]
    · rw [setEntry, if_neg hk, lookup_cons_of_ne _ _ _ _ (Ne.symm hk)]
      exact ih

theorem lookup_setEntry_ne {α : Type} (l : List (String × α)) (k k2 : String) (v : α)
    (h : k2 ≠ k) : List.lookup k2 (setEntry l k v) = List.lookup k2 l := by
  induction l with
  | nil => simp [setEntry, lookup_cons_of_ne _ _ _ _ h]
  | cons hd t ih =>
    obtain ⟨k1, v1⟩ := hd
    by_cases hk : k1 = k
    · subst hk
      rw [setEntry, if_pos rfl, lookup_cons_of_ne _ _ _ _ h, lookup_cons_of_ne _ _ _ _ h]
    · rw [setEntry, if_neg hk]
      by_cases hk2 : k2 = k1
      · subst hk2
        simp
      · rw [lookup_cons_of_ne _ _ _ _ hk2, lookup_cons_of_ne _ _ _ _ hk2]
        exact ih

theorem setEntry_lookup_eq {α : Type} (l : List (String × α)) (k : String) (v : α)
    (h : List.lookup k l = some v) : setEntry l k v = l := by
  induction l with
  | nil => simp [List.lookup] at h
  | cons hd t ih =>
    obtain ⟨k1, v1⟩ := hd
    by_cases hk : k1 = k
    · subst hk
      rw [List.lookup_cons_self, Option.some.injEq] at h
      simp [setEntry, h]
    · rw [lookup_cons_of_ne _ _ _ _ (Ne.symm hk)] at h
      simp [setEntry, hk, ih h]

theorem lookup_eraseP_ne {α : Type} (l : List (String × α)) (k k2 : String)
    (h : k2 ≠ k) :
    List.lookup k2 (l.eraseP fun e => e.1 == k) = List.lookup k2 l := by
  induction l with
  | nil => simp [List.eraseP]
  | cons hd t ih =>
    obtain ⟨k1, v1⟩ := hd
    by_cases hk : k1 = k
    · subst hk
      simp [List.eraseP, lookup_cons_of_ne _ _ _ _ h]
    · have hb : (k1 == k) = false := beq_eq_false_iff_ne.mpr hk
      rw [List.eraseP_cons]
      simp only [hb, cond_false]
      by_cases hk2 : k2 = k1
      · subst hk2
        simp
      · rw [lookup_cons_of_ne _ _ _ _ hk2, lookup_cons_of_ne _ _ _ _ hk2]
        exact ih

theorem lookup_isSome_iff_mem_keys {α : Type} (l : List (String × α)) (k : String) :
    (List.lookup k l).isSome = true ↔ k ∈ l.map Prod.fst := by
  induction l with
  | nil => simp [List.lookup]
  | cons hd t ih =>
    obtain ⟨k1, v1⟩ := hd
    by_cases hk : k1 = k
    · subst hk
      simp
    · rw [lookup_cons_of_ne _ _ _ _ (Ne.symm hk)]
      simp [ih, hk, Ne.symm hk]

theorem lookup_eraseP_self {α : Type} (l : List (String × α)) (k : String)
    (h : (l.map Prod.fst).Nodup) :
    List.lookup k (l.eraseP fun e => e.1 == k) = none := by
  induction l with
  | nil => simp [List.eraseP, List.lookup]
  | cons hd t ih =>
    obtain ⟨k1, v1⟩ := hd
    simp at h
    by_cases hk : k1 = k
    · subst hk
      simp only [List.eraseP_cons, beq_self_eq_true, cond_true]
      cases hl : List.lookup k1 t with
      | none => rfl
      | some v =>
        exfalso
        have hmem := (lookup_isSome_iff_mem_keys t k1).mp (by simp [hl])
        simp at hmem
        obtain ⟨b, hb⟩ := hmem
        exact h.1 b hb
    · have hb : (k1 == k) = false := beq_eq_false_iff_ne.mpr hk
      rw [List.eraseP_cons]
      simp only [hb, cond_false]
      rw [lookup_cons_of_ne _ _ _ _ (Ne.symm hk)]
      exact ih h.2

/-- C1: `redundant_features` is exactly the intersection of the
inherited entry's feature list with the shared declaration's required
features, in the entry's declaration order, and every
`RedundantFeatures` finding the rule reports carries exactly that
list — so each reported feature is on both sides. -/
theorem c1_redundant_features_ordered_intersection :
    ∀ (dep_name item_name : String) (ws_dep : Dependency)
      (dep : InheritedDependencyDetail) (doc_deps : TomlTable),
    (∀ f, f ∈ redundant_features ws_dep dep ↔
        (f ∈ dep.features ∧ f ∈ ws_dep.req_features))
    ∧ List.Sublist (redundant_features ws_dep dep) dep.features
    ∧ (∀ r, dependency_with_redundant_workspace_features dep_name ws_dep dep
          doc_deps item_name = some r →
        ∀ f ∈ r.2.1, f.kind = FindingKind.redundantFeatures (redundant_features ws_dep dep)) := by
  intro dep_name item_name ws_dep dep doc_deps
  refine ⟨?_, List.filter_sublist _, ?_⟩
  · intro f
    simp [redundant_features, List.mem_filter, List.contains, List.elem_iff]
  · intro r hr f hf
    unfold dependency_with_redundant_workspace_features at hr
    simp only [] at hr
    split at hr
    · simp only [Option.some.injEq] at hr
      subst hr
      simp at hf
    · split at hr
      · split at hr
        · simp only [Option.some.injEq] at hr
          subst hr
          simp at hf
          subst hf
          rfl
        · simp at hr
      · simp at hr

/-- C1 applied at a concrete input: shared `serde` requires features
`a` and `b`, the inherited entry lists `a` and `c`, and the computed
redundant list is exactly `[a]`. -/
theorem c1_redundant_features_ordered_intersection_witness :
    ("a" ∈ redundant_features (Dependency.detailed ["a", "b"]) ⟨true, ["a", "c"]⟩ ↔
      ("a" ∈ ["a", "c"] ∧ "a" ∈ (Dependency.detailed ["a", "b"]).req_features))
    ∧ redundant_features (Dependency.detailed ["a", "b"]) ⟨true, ["a", "c"]⟩ = ["a"] :=
  ⟨((c1_redundant_features_ordered_intersection "serde" "dependency"
      (Dependency.detailed ["a", "b"]) ⟨true, ["a", "c"]⟩ []).1 "a"), by rfl⟩

/-- C2: a name is reported by `unused_workspace_deps` exactly when it
is a shared dependency name and no member's normal, dev, or build
dependency table has it as a key, and the output is in the shared
set's order (a sublist of its key list). -/
theorem c2_unused_workspace_deps_characterization :
    ∀ (root : Manifest) (members : List Manifest) (name : String),
    (name ∈ unused_workspace_deps root members ↔
      (name ∈ ((root.workspace.map Workspace.dependencies).getD []).map Prod.fst ∧
        ∀ m ∈ members,
          name ∉ m.dependencies.map Prod.fst ∧
          name ∉ m.dev_dependencies.map Prod.fst ∧
          name ∉ m.build_dependencies.map Prod.fst))
    ∧ List.Sublist (unused_workspace_deps root members)
        (((root.workspace.map Workspace.dependencies).getD []).map Prod.fst) := by
  intro root members name
  constructor
  · rw [unused_workspace_deps]
    simp [List.mem_filter, List.contains, List.elem_iff, not_or]
    intro x hx
    constructor
    · intro h m hm
      obtain ⟨⟨h1, h2⟩, h3⟩ := h m hm
      exact ⟨h1, h2, h3⟩
    · intro h m hm
      obtain ⟨h1, h2, h3⟩ := h m hm
      exact ⟨⟨h1, h2⟩, h3⟩
  · exact List.filter_sublist _

/-- C2 applied at a concrete input: shared set `a, b`; one member uses
`a` in its dev table, nobody uses `b`; `b` is reported, `a` is not. -/
theorem c2_unused_workspace_deps_characterization_witness :
    ("b" ∈ unused_workspace_deps
        ⟨some ⟨[("a", Dependency.simple "1"), ("b", Dependency.simple "1")]⟩, [], [], []⟩
        [⟨none, [], [("a", Dependency.inherited ⟨true, []⟩)], []⟩] ↔
      ("b" ∈ ["a", "b"] ∧ ∀ m ∈ [(⟨none, [], [("a", Dependency.inherited ⟨true, []⟩)], []⟩ : Manifest)],
        "b" ∉ m.dependencies.map Prod.fst ∧
        "b" ∉ m.dev_dependencies.map Prod.fst ∧
        "b" ∉ m.build_dependencies.map Prod.fst)) ∧
    unused_workspace_deps
        ⟨some ⟨[("a", Dependency.simple "1"), ("b", Dependency.simple "1")]⟩, [], [], []⟩
        [⟨none, [], [("a", Dependency.inherited ⟨true, []⟩)], []⟩] = ["b"] :=
  ⟨(c2_unused_workspace_deps_characterization
      ⟨some ⟨[("a", Dependency.simple "1"), ("b", Dependency.simple "1")]⟩, [], [], []⟩
      [⟨none, [], [("a", Dependency.inherited ⟨true, []⟩)], []⟩] "b").1, by rfl⟩

/-- C4: for an inherited entry whose document value is a table, the
default-features rule reports a finding exactly when the table has a
`default-features` or `default_features` key, whatever its value, and
the finding list is nonempty exactly when the rule returns `true`. -/
theorem c4_default_features_flag_iff_key_present :
    ∀ (dep_name item_name : String) (doc_deps : TomlTable) (compact : Bool)
      (kvs : TomlTable),
    List.lookup dep_name doc_deps = some (TomlValue.inlineTable compact kvs) →
    (((workspace_dependency_with_default_features_set dep_name doc_deps item_name).1 = true ↔
      ((List.lookup "default-features" kvs).isSome = true ∨
        (List.lookup "default_features" kvs).isSome = true))
    ∧ ((workspace_dependency_with_default_features_set dep_name doc_deps item_name).2.1 ≠ [] ↔
        (workspace_dependency_with_default_features_set dep_name doc_deps item_name).1 = true)) := by
  intro dep_name item_name doc_deps compact kvs hl
  cases h1 : List.lookup "default-features" kvs with
  | some v1 =>
    simp [workspace_dependency_with_default_features_set, hl, tableRemove, h1]
  | none =>
    cases h2 : List.lookup "default_features" kvs with
    | some v2 =>
      simp [workspace_dependency_with_default_features_set, hl, tableRemove, h1, h2]
    | none =>
      simp [workspace_dependency_with_default_features_set, hl, tableRemove, h1, h2]

/-- C4 applied at a concrete input: an inherited entry with
`default_features = false` (underscore spelling, value `false`) is
reported. -/
theorem c4_default_features_flag_iff_key_present_witness :
    ((workspace_dependency_with_default_features_set "serde"
        [("serde", TomlValue.inlineTable false
          [("workspace", TomlValue.bool true), ("default_features", TomlValue.bool false)])]
        "dependency").1 = true ↔
      ((List.lookup "default-features"
          ([("workspace", TomlValue.bool true), ("default_features", TomlValue.bool false)] :
            TomlTable)).isSome = true ∨
        (List.lookup "default_features"
          ([("workspace", TomlValue.bool true), ("default_features", TomlValue.bool false)] :
            TomlTable)).isSome = true)) ∧
    (workspace_dependency_with_default_features_set "serde"
        [("serde", TomlValue.inlineTable false
          [("workspace", TomlValue.bool true), ("default_features", TomlValue.bool false)])]
        "dependency").1 = true :=
  ⟨(c4_default_features_flag_iff_key_present "serde" "dependency"
      [("serde", TomlValue.inlineTable false
        [("workspace", TomlValue.bool true), ("default_features", TomlValue.bool false)])]
      false
      [("workspace", TomlValue.bool true), ("default_features", TomlValue.bool false)]
      (by rfl)).1, by rfl⟩

/-- C9: when both spellings are present in the entry's table, one run
of the default-features rule returns `true` but removes only the
hyphenated key, leaving `default_features` bound to its old value. -/
theorem c9_both_spellings_short_circuit :
    ∀ (dep_name item_name : String) (doc_deps : TomlTable) (compact : Bool)
      (kvs : TomlTable) (v1 v2 : TomlValue),
    List.lookup dep_name doc_deps = some (TomlValue.inlineTable compact kvs) →
    List.lookup "default-features" kvs = some v1 →
    List.lookup "default_features" kvs = some v2 →
    (kvs.map Prod.fst).Nodup →
    (workspace_dependency_with_default_features_set dep_name doc_deps item_name).1 = true ∧
    List.lookup dep_name
        (workspace_dependency_with_default_features_set dep_name doc_deps item_name).2.2 =
      some (TomlValue.inlineTable compact (kvs.eraseP fun e => e.1 == "default-features")) ∧
    List.lookup "default-features" (kvs.eraseP fun e => e.1 == "default-features") = none ∧
    List.lookup "default_features" (kvs.eraseP fun e => e.1 == "default-features") = some v2 := by
  intro dep_name item_name doc_deps compact kvs v1 v2 hl h1 h2 hnd
  refine ⟨?_, ?_, lookup_eraseP_self kvs _ hnd, ?_⟩
  · simp [workspace_dependency_with_default_features_set, hl, tableRemove, h1]
  · simp [workspace_dependency_with_default_features_set, hl, tableRemove, h1,
      lookup_setEntry_self]
  · rw [lookup_eraseP_ne kvs "default-features" "default_features" (by decide)]
    exact h2

/-- C9 applied at a concrete input: a table with both spellings keeps
`default_features = false` after the fix while the rule reports a
finding. -/
theorem c9_both_spellings_short_circuit_witness :
    (workspace_dependency_with_default_features_set "serde"
        [("serde", TomlValue.inlineTable false
          [("workspace", TomlValue.bool true), ("default-features", TomlValue.bool false),
            ("default_features", TomlValue.bool false)])]
        "dependency").1 = true ∧
    List.lookup "default_features"
        (([("workspace", TomlValue.bool true), ("default-features", TomlValue.bool false),
          ("default_features", TomlValue.bool false)] : TomlTable).eraseP
          fun e => e.1 == "default-features") = some (TomlValue.bool false) :=
  have h := c9_both_spellings_short_circuit "serde" "dependency"
    [("serde", TomlValue.inlineTable false
      [("workspace", TomlValue.bool true), ("default-features", TomlValue.bool false),
        ("default_features", TomlValue.bool false)])]
    false
    [("workspace", TomlValue.bool true), ("default-features", TomlValue.bool false),
      ("default_features", TomlValue.bool false)]
    (TomlValue.bool false) (TomlValue.bool false)
    (by rfl) (by rfl) (by rfl) (by decide)
  ⟨h.1, h.2.2.2⟩

/-! ### Reverse-order sequence removal (`main.rs:233-241`) -/

theorem foldl_eraseIdx_succ {α : Type} (l : List Nat) (a : α) (t : List α) :
    (l.map (· + 1)).reverse.foldl (fun acc i => acc.eraseIdx i) (a :: t)
      = a :: (l.reverse.foldl (fun acc i => acc.eraseIdx i) t) := by
  rw [List.foldl_reverse, List.foldl_reverse, List.foldr_map]
  induction l with
  | nil => rfl
  | cons i l ih =>
    simp only [List.foldr_cons]
    rw [ih]
    rfl

theorem reverse_removal_eq_filter {α : Type} (p : α → Bool) :
    ∀ xs : List α,
    ((xs.enum.filter fun iv => p iv.2).map Prod.fst).reverse.foldl
        (fun acc i => acc.eraseIdx i) xs = xs.filter fun v => !(p v) := by
  intro xs
  induction xs with
  | nil => rfl
  | cons a t ih =>
    rw [List.enum_cons']
    have hg : ((fun iv => p iv.2) ∘ Prod.map (· + 1) (@id α)) = fun iv => p iv.2 := by
      funext iv
      simp [Prod.map]
    have hmf : ((t.enum.map (Prod.map (· + 1) id)).filter fun iv => p iv.2)
        = (t.enum.filter fun iv => p iv.2).map (Prod.map (· + 1) id) := by
      rw [List.filter_map, hg]
    have hfst : ((t.enum.filter fun iv => p iv.2).map (Prod.map (· + 1) id)).map Prod.fst
        = ((t.enum.filter fun iv => p iv.2).map Prod.fst).map (· + 1) := by
      simp only [List.map_map]
      rfl
    by_cases hp : p a
    · rw [List.filter_cons_of_pos (by simpa using hp)]
      simp only [List.map_cons, hmf, hfst, List.reverse_cons]
      rw [List.foldl_append, foldl_eraseIdx_succ]
      simp only [List.foldl_cons, List.foldl_nil, List.eraseIdx_zero, List.tail_cons]
      rw [ih, List.filter_cons_of_neg (by simpa using hp)]
    · rw [List.filter_cons_of_neg (by simpa using hp)]
      rw [hmf, hfst, foldl_eraseIdx_succ, ih,
        List.filter_cons_of_pos (by simpa using hp)]

/-- C8: when the redundant list is nonempty and the document has the
expected entry, the rule removes exactly the feature items whose string
is redundant — the reverse-index fold equals a filter, so every index
used is valid (the collected indices are strictly increasing and below
the array length) — and drops the `features` key when the array
empties, otherwise stores the kept items in order. -/
theorem c8_reverse_removal_removes_exactly_redundant :
    ∀ (dep_name item_name : String) (ws_dep : Dependency)
      (dep : InheritedDependencyDetail) (doc_deps : TomlTable)
      (compact : Bool) (kvs : TomlTable) (feats : List TomlValue),
    List.lookup dep_name doc_deps = some (TomlValue.inlineTable compact kvs) →
    List.lookup "features" kvs = some (TomlValue.array feats) →
    redundant_features ws_dep dep ≠ [] →
    (kvs.map Prod.fst).Nodup →
    (dependency_with_redundant_workspace_features dep_name ws_dep dep doc_deps item_name
        = some (true,
            [⟨dep_name, item_name,
              FindingKind.redundantFeatures (redundant_features ws_dep dep)⟩],
            setEntry doc_deps dep_name (TomlValue.inlineTable compact
              (fixed_features_entry (redundant_features ws_dep dep) kvs feats)))) ∧
      ((feats.filter fun v => !((TomlValue.asStr v).any fun s =>
          (redundant_features ws_dep dep).contains s)) = [] →
        List.lookup "features"
          (fixed_features_entry (redundant_features ws_dep dep) kvs feats) = none) ∧
      ((feats.filter fun v => !((TomlValue.asStr v).any fun s =>
          (redundant_features ws_dep dep).contains s)) ≠ [] →
        List.lookup "features"
          (fixed_features_entry (redundant_features ws_dep dep) kvs feats)
          = some (TomlValue.array
            (feats.filter fun v => !((TomlValue.asStr v).any fun s =>
              (redundant_features ws_dep dep).contains s)))) ∧
      List.Pairwise (· < ·) ((feats.enum.filter fun iv =>
        (TomlValue.asStr iv.2).any fun s =>
          (redundant_features ws_dep dep).contains s).map Prod.fst) ∧
      (∀ i ∈ (feats.enum.filter fun iv =>
        (TomlValue.asStr iv.2).any fun s =>
          (redundant_features ws_dep dep).contains s).map Prod.fst, i < feats.length) := by
  intro dep_name item_name ws_dep dep doc_deps compact kvs feats h1 h2 h3 h4
  have hred : (redundant_features ws_dep dep).isEmpty = false := by
    cases hl : redundant_features ws_dep dep with
    | nil => exact absurd hl h3
    | cons a l => rfl
  have hfold := reverse_removal_eq_filter
    (fun v => (TomlValue.asStr v).any fun s => (redundant_features ws_dep dep).contains s) feats
  have hsub : List.Sublist ((feats.enum.filter fun iv =>
      (TomlValue.asStr iv.2).any fun s =>
        (redundant_features ws_dep dep).contains s).map Prod.fst)
      (List.range feats.length) := by
    rw [← List.enum_map_fst feats]
    exact List.Sublist.map Prod.fst (List.filter_sublist feats.enum)
  refine ⟨?_, ?_, ?_, ?_, ?_⟩
  · unfold dependency_with_redundant_workspace_features
    simp only [hred, Bool.false_eq_true, if_false, h1, h2]
  · intro hke
    unfold fixed_features_entry
    simp only [hfold, hke, List.isEmpty_nil, if_true]
    exact lookup_eraseP_self kvs "features" h4
  · intro hke
    have hkeb : (feats.filter fun v => !((TomlValue.asStr v).any fun s =>
        (redundant_features ws_dep dep).contains s)).isEmpty = false := by
      cases hl : feats.filter fun v => !((TomlValue.asStr v).any fun s =>
          (redundant_features ws_dep dep).contains s) with
      | nil => exact absurd hl hke
      | cons a l => rfl
    unfold fixed_features_entry
    simp only [hfold, hkeb, Bool.false_eq_true, if_false]
    exact lookup_setEntry_self kvs "features" _
  · exact List.Pairwise.sublist hsub (List.pairwise_lt_range feats.length)
  · intro i hi
    exact List.mem_range.mp (hsub.subset hi)

/-- C8 applied at a concrete input: shared `foo` requires `a` and `b`,
the entry lists `["a", "c"]`; item `"a"` is removed and the kept array
`["c"]` is stored back under the `features` key. -/
theorem c8_reverse_removal_removes_exactly_redundant_witness :
    (dependency_with_redundant_workspace_features "foo" (Dependency.detailed ["a", "b"])
        ⟨true, ["a", "c"]⟩
        [("foo", TomlValue.inlineTable false
          [("workspace", TomlValue.bool true),
            ("features", TomlValue.array [TomlValue.str "a", TomlValue.str "c"])])]
        "dependency"
      = some (true,
          [⟨"foo", "dependency",
            FindingKind.redundantFeatures
              (redundant_features (Dependency.detailed ["a", "b"]) ⟨true, ["a", "c"]⟩)⟩],
          setEntry
            [("foo", TomlValue.inlineTable false
              [("workspace", TomlValue.bool true),
                ("features", TomlValue.array [TomlValue.str "a", TomlValue.str "c"])])]
            "foo"
            (TomlValue.inlineTable false
              (fixed_features_entry
                (redundant_features (Dependency.detailed ["a", "b"]) ⟨true, ["a", "c"]⟩)
                [("workspace", TomlValue.bool true),
                  ("features", TomlValue.array [TomlValue.str "a", TomlValue.str "c"])]
                [TomlValue.str "a", TomlValue.str "c"])))) ∧
    List.lookup "features"
        (fixed_features_entry
          (redundant_features (Dependency.detailed ["a", "b"]) ⟨true, ["a", "c"]⟩)
          [("workspace", TomlValue.bool true),
            ("features", TomlValue.array [TomlValue.str "a", TomlValue.str "c"])]
          [TomlValue.str "a", TomlValue.str "c"])
      = some (TomlValue.array [TomlValue.str "c"]) :=
  have h := c8_reverse_removal_removes_exactly_redundant "foo" "dependency"
    (Dependency.detailed ["a", "b"]) ⟨true, ["a", "c"]⟩
    [("foo", TomlValue.inlineTable false
      [("workspace", TomlValue.bool true),
        ("features", TomlValue.array [TomlValue.str "a", TomlValue.str "c"])])]
    false
    [("workspace", TomlValue.bool true),
      ("features", TomlValue.array [TomlValue.str "a", TomlValue.str "c"])]
    [TomlValue.str "a", TomlValue.str "c"]
    (by rfl) (by rfl) (by decide) (by decide)
  ⟨h.1, by
    have h2 := h.2.2.1 (by
      have he : (List.filter (fun v => !((TomlValue.asStr v).any fun s =>
          (redundant_features (Dependency.detailed ["a", "b"])
            ⟨true, ["a", "c"]⟩).contains s))
          [TomlValue.str "a", TomlValue.str "c"]) = [TomlValue.str "c"] := rfl
      rw [he]
      exact List.cons_ne_nil _ _)
    simpa using h2⟩

/-- C7: on a successful run the exit code is `1` exactly when findings
remain and `--fix` was not passed, and `0` when there are no findings
or fixing was requested. -/
theorem c7_exit_code_zero_or_one :
    ∀ (fix : Bool) (root : Manifest) (members : List WorkspaceMember) (stf : Bool),
    something_to_fix_run root members = some stf →
    main_exit fix root members = some (if !fix && stf then 1 else 0) ∧
    (main_exit fix root members = some 1 ↔ (stf = true ∧ fix = false)) ∧
    ((stf = false ∨ fix = true) → main_exit fix root members = some 0) := by
  intro fix root members stf h
  unfold main_exit
  rw [h]
  refine ⟨rfl, ?_, ?_⟩
  · cases fix <;> cases stf <;> simp
  · cases fix <;> cases stf <;> simp

/-- C7 applied at a concrete input: a workspace whose only shared
dependency `bar` is unused has something to fix, and a run without
`--fix` exits with code 1. -/
theorem c7_exit_code_zero_or_one_witness :
    main_exit false ⟨some ⟨[("bar", Dependency.simple "1")]⟩, [], [], []⟩ []
      = some (if !false && true then 1 else 0) ∧
    (main_exit false ⟨some ⟨[("bar", Dependency.simple "1")]⟩, [], [], []⟩ [] = some 1 ↔
      (true = true ∧ false = false)) ∧
    ((true = false ∨ false = true) →
      main_exit false ⟨some ⟨[("bar", Dependency.simple "1")]⟩, [], [], []⟩ [] = some 0) :=
  c7_exit_code_zero_or_one false ⟨some ⟨[("bar", Dependency.simple "1")]⟩, [], [], []⟩ []
    true (by rfl)

theorem run_members_skip (root : Manifest) (m : WorkspaceMember)
    (hnone : manifest_path m.repr = none) :
    ∀ (pre post : List WorkspaceMember) (acc : Bool × List Manifest),
    run_members root (pre ++ m :: post) acc = run_members root (pre ++ post) acc := by
  intro pre
  induction pre with
  | nil =>
    intro post acc
    simp only [List.nil_append, run_members, hnone]
  | cons p t ih =>
    intro post acc
    simp only [List.cons_append, run_members]
    cases hp : manifest_path p.repr with
    | none => exact ih post acc
    | some q =>
      cases hl : lint_manifest root (absManifest p.doc) p.doc with
      | none => rfl
      | some r => exact ih post _

/-- C10: a workspace member whose package id has no `path+file://`
marker is skipped entirely — the member loop, the accumulated
something-to-fix flag, the collected manifests and the final exit code
are the same as if the member were not listed at all. -/
theorem c10_member_without_local_path_is_skipped :
    ∀ (fix : Bool) (root : Manifest) (pre post : List WorkspaceMember)
      (m : WorkspaceMember) (acc : Bool × List Manifest),
    manifest_path m.repr = none →
    run_members root (pre ++ m :: post) acc = run_members root (pre ++ post) acc ∧
    something_to_fix_run root (pre ++ m :: post) = something_to_fix_run root (pre ++ post) ∧
    main_exit fix root (pre ++ m :: post) = main_exit fix root (pre ++ post) := by
  intro fix root pre post m acc hnone
  have hrun := run_members_skip root m hnone pre post
  refine ⟨hrun acc, ?_, ?_⟩
  · unfold something_to_fix_run
    rw [hrun (false, [])]
  · unfold main_exit something_to_fix_run
    rw [hrun (false, [])]

/-- C10 applied at a concrete input: a registry package id is skipped
and a singleton workspace behaves like an empty one. -/
theorem c10_member_without_local_path_is_skipped_witness :
    run_members ⟨none, [], [], []⟩
        [⟨"registry+https://github.com/rust-lang/crates.io-index#serde@1.0.219", ⟨[]⟩⟩]
        (false, [])
      = run_members ⟨none, [], [], []⟩ [] (false, []) ∧
    something_to_fix_run ⟨none, [], [], []⟩
        [⟨"registry+https://github.com/rust-lang/crates.io-index#serde@1.0.219", ⟨[]⟩⟩]
      = something_to_fix_run ⟨none, [], [], []⟩ [] ∧
    main_exit false ⟨none, [], [], []⟩
        [⟨"registry+https://github.com/rust-lang/crates.io-index#serde@1.0.219", ⟨[]⟩⟩]
      = main_exit false ⟨none, [], [], []⟩ [] := by
  have h := c10_member_without_local_path_is_skipped false ⟨none, [], [], []⟩ [] []
    ⟨"registry+https://github.com/rust-lang/crates.io-index#serde@1.0.219", ⟨[]⟩⟩
    (false, []) (by decide)
  simpa using h

/-! ### Concrete workspaces used as evidence -/

/-- Root manifest sharing only `foo`. -/
def c6_root : Manifest := ⟨some ⟨[("foo", Dependency.simple "1")]⟩, [], [], []⟩

/-- A member document whose inherited `foo` sets the default-features
flag under both accepted spellings. -/
def c6_doc : Doc := ⟨[("dependencies",
  [("foo", TomlValue.inlineTable false
    [("workspace", TomlValue.bool true),
      ("default-features", TomlValue.bool false),
      ("default_features", TomlValue.bool false)])])]⟩

/-- `c6_doc` after one fix pass: only the hyphenated key was removed. -/
def c6_doc1 : Doc := ⟨[("dependencies",
  [("foo", TomlValue.inlineTable false
    [("workspace", TomlValue.bool true),
      ("default_features", TomlValue.bool false)])])]⟩

/-- `c6_doc` after a second fix pass: the underscore key is gone too. -/
def c6_doc2 : Doc := ⟨[("dependencies",
  [("foo", TomlValue.inlineTable false
    [("workspace", TomlValue.bool true)])])]⟩

/-- C6 fails on the code: with both flag spellings present, the first
pass reports a finding and removes only `default-features`; running
the lint pass again on its own output reports a finding again
(`has_fixes = true`, not `false`) and changes the text once more. -/
theorem c6_second_pass_reports_finding_again :
    lint_manifest c6_root (absManifest c6_doc) c6_doc
      = some (true, [⟨"foo", "dependency", FindingKind.redundantDefaultFeaturesFlag⟩],
          c6_doc1) ∧
    lint_manifest c6_root (absManifest c6_doc1) c6_doc1
      = some (true, [⟨"foo", "dependency", FindingKind.redundantDefaultFeaturesFlag⟩],
          c6_doc2) ∧
    Doc.render c6_doc2 ≠ Doc.render c6_doc1 := by
  refine ⟨rfl, rfl, by decide⟩

/-! ### Frame properties of the fix mutations -/

/-- The entry stored for dependency `n` in section `s` of a document. -/
def entryAt (d : Doc) (s n : String) : Option TomlValue :=
  List.lookup n (d.getTable s)

theorem getTable_setTable_self (d : Doc) (s : String) (t : TomlTable) :
    (d.setTable s t).getTable s = t := by
  unfold Doc.getTable Doc.setTable
  rw [lookup_setEntry_self]
  rfl

theorem getTable_setTable_ne (d : Doc) (s s2 : String) (t : TomlTable) (h : s2 ≠ s) :
    (d.setTable s t).getTable s2 = d.getTable s2 := by
  unfold Doc.getTable Doc.setTable
  rw [lookup_setEntry_ne _ _ _ _ h]

theorem rule1_frame (dep_name : String) (ws_dep : Dependency)
    (dep : InheritedDependencyDetail) (doc_deps : TomlTable) (item_name : String)
    (b : Bool) (fs : List Finding) (t2 : TomlTable)
    (h : dependency_with_redundant_workspace_features dep_name ws_dep dep doc_deps item_name
      = some (b, fs, t2)) :
    (∀ n, n ≠ dep_name → List.lookup n t2 = List.lookup n doc_deps) ∧
    (fs = [] → t2 = doc_deps) ∧
    (∀ f ∈ fs, f.dep_name = dep_name) := by
  unfold dependency_with_redundant_workspace_features at h
  simp only [] at h
  split at h
  · simp only [Option.some.injEq, Prod.mk.injEq] at h
    obtain ⟨h1, h2, h3⟩ := h
    subst h2
    subst h3
    exact ⟨fun n hn => rfl, fun _ => rfl, by simp⟩
  · split at h
    · split at h
      · simp only [Option.some.injEq, Prod.mk.injEq] at h
        obtain ⟨h1, h2, h3⟩ := h
        subst h2
        subst h3
        refine ⟨fun n hn => lookup_setEntry_ne _ _ _ _ hn, ?_, ?_⟩
        · intro he
          exact absurd he (by simp)
        · simp
      · simp at h
    · simp at h

theorem rule2_frame (dep_name : String) (doc_deps : TomlTable) (item_name : String) :
    (∀ n, n ≠ dep_name →
      List.lookup n
          (workspace_dependency_with_default_features_set dep_name doc_deps item_name).2.2
        = List.lookup n doc_deps) ∧
    ((workspace_dependency_with_default_features_set dep_name doc_deps item_name).2.1 = [] →
      (workspace_dependency_with_default_features_set dep_name doc_deps item_name).2.2
        = doc_deps) ∧
    (∀ f ∈ (workspace_dependency_with_default_features_set dep_name doc_deps item_name).2.1,
      f.dep_name = dep_name) := by
  cases hl : List.lookup dep_name doc_deps with
  | none => simp [workspace_dependency_with_default_features_set, hl]
  | some v =>
    cases v with
    | bool b0 => simp [workspace_dependency_with_default_features_set, hl]
    | str s0 => simp [workspace_dependency_with_default_features_set, hl]
    | array xs => simp [workspace_dependency_with_default_features_set, hl]
    | inlineTable compact kvs =>
      cases h1 : List.lookup "default-features" kvs with
      | some v1 =>
        refine ⟨?_, ?_, ?_⟩
        · intro n hn
          simp only [workspace_dependency_with_default_features_set, hl, tableRemove, h1,
            Option.isSome_some, if_true]
          exact lookup_setEntry_ne _ _ _ _ hn
        · intro he
          exact absurd he (by
            simp [workspace_dependency_with_default_features_set, hl, tableRemove, h1])
        · simp [workspace_dependency_with_default_features_set, hl, tableRemove, h1]
      | none =>
        cases h2 : List.lookup "default_features" kvs with
        | some v2 =>
          refine ⟨?_, ?_, ?_⟩
          · intro n hn
            simp only [workspace_dependency_with_default_features_set, hl, tableRemove, h1, h2,
              Option.isSome_none, Option.isSome_some, Bool.false_eq_true, if_false]
            exact lookup_setEntry_ne _ _ _ _ hn
          · intro he
            exact absurd he (by
              simp [workspace_dependency_with_default_features_set, hl, tableRemove, h1, h2])
          · simp [workspace_dependency_with_default_features_set, hl, tableRemove, h1, h2]
        | none =>
          have hset := setEntry_lookup_eq doc_deps dep_name
            (TomlValue.inlineTable compact kvs) hl
          simp [workspace_dependency_with_default_features_set, hl, tableRemove, h1, h2, hset]

theorem lint_dep_table_frame (name : String) (ws_dep : Dependency)
    (mdeps : List (String × Dependency)) (tname item_name : String) (doc : Doc)
    (b : Bool) (fs : List Finding) (d2 : Doc)
    (h : lint_dep_table name ws_dep mdeps tname item_name doc = some (b, fs, d2)) :
    (∀ f ∈ fs, f.dep_name = name) ∧
    (∀ s n, ¬(s = tname ∧ n = name) → entryAt d2 s n = entryAt doc s n) ∧
    (fs = [] → ∀ s n, entryAt d2 s n = entryAt doc s n) := by
  have htriv : doc = d2 → fs = [] →
      (∀ f ∈ fs, f.dep_name = name) ∧
      (∀ s n, ¬(s = tname ∧ n = name) → entryAt d2 s n = entryAt doc s n) ∧
      (fs = [] → ∀ s n, entryAt d2 s n = entryAt doc s n) := by
    intro hd hfs
    subst hd
    subst hfs
    exact ⟨by simp, fun s n _ => rfl, fun _ s n => rfl⟩
  cases hmd : List.lookup name mdeps with
  | none =>
    simp only [lint_dep_table, hmd, Option.some.injEq, Prod.mk.injEq] at h
    exact htriv h.2.2 h.2.1.symm
  | some dp =>
    cases dp with
    | simple v =>
      simp only [lint_dep_table, hmd, Option.some.injEq, Prod.mk.injEq] at h
      exact htriv h.2.2 h.2.1.symm
    | detailed fts =>
      simp only [lint_dep_table, hmd, Option.some.injEq, Prod.mk.injEq] at h
      exact htriv h.2.2 h.2.1.symm
    | inherited dep =>
      cases hw : dep.workspace with
      | false =>
        simp only [lint_dep_table, hmd, hw, Bool.false_eq_true, if_false,
          Option.some.injEq, Prod.mk.injEq] at h
        exact htriv h.2.2 h.2.1.symm
      | true =>
        cases hr1 : dependency_with_redundant_workspace_features name ws_dep dep
            (doc.getTable tname) item_name with
        | none =>
          simp [lint_dep_table, hmd, hw, hr1] at h
        | some r1 =>
          obtain ⟨f1, fs1, t1⟩ := r1
          simp only [lint_dep_table, hmd, hw, if_true, hr1, Option.some.injEq,
            Prod.mk.injEq] at h
          obtain ⟨hb, hfs, hd⟩ := h
          subst hfs
          subst hd
          have H1 := rule1_frame name ws_dep dep (doc.getTable tname) item_name f1 fs1 t1 hr1
          have H2 := rule2_frame name t1 item_name
          refine ⟨?_, ?_, ?_⟩
          · intro f hf
            rcases List.mem_append.mp hf with hf1 | hf2
            · exact H1.2.2 f hf1
            · exact H2.2.2 f hf2
          · intro s n hsn
            by_cases hs : s = tname
            · subst hs
              have hn : n ≠ name := fun hn => hsn ⟨rfl, hn⟩
              unfold entryAt
              rw [getTable_setTable_self]
              rw [H2.1 n hn, H1.1 n hn]
            · unfold entryAt
              rw [getTable_setTable_ne _ _ _ _ hs]
          · intro hfs0 s n
            rcases List.append_eq_nil.mp hfs0 with ⟨hfs1, hfs2⟩
            have ht1 : t1 = doc.getTable tname := H1.2.1 hfs1
            have ht2 :
                (workspace_dependency_with_default_features_set name t1 item_name).2.2 = t1 :=
              H2.2.1 hfs2
            rw [ht2, ht1]
            by_cases hs : s = tname
            · subst hs
              unfold entryAt
              rw [getTable_setTable_self]
            · unfold entryAt
              rw [getTable_setTable_ne _ _ _ _ hs]

theorem lint_deps_frame :
    ∀ (l : List (String × Dependency)) (member : Manifest) (doc : Doc)
      (b : Bool) (fs : List Finding) (d2 : Doc),
    lint_deps l member doc = some (b, fs, d2) →
    ∀ n, (∀ f ∈ fs, f.dep_name ≠ n) → ∀ s, entryAt d2 s n = entryAt doc s n := by
  intro l
  induction l with
  | nil =>
    intro member doc b fs d2 h n hn s
    unfold lint_deps at h
    simp only [Option.some.injEq, Prod.mk.injEq] at h
    obtain ⟨hb, hfs, hd⟩ := h
    subst hd
    rfl
  | cons p rest ih =>
    obtain ⟨name, ws_dep⟩ := p
    intro member doc b fs d2 h n hn s
    cases hr1 : lint_dep_table name ws_dep member.dependencies "dependencies"
        "dependency" doc with
    | none => simp [lint_deps, hr1] at h
    | some r1 =>
      obtain ⟨a1, fs1, doc1⟩ := r1
      cases hr2 : lint_dep_table name ws_dep member.dev_dependencies "dev-dependencies"
          "dev-dependency" doc1 with
      | none => simp [lint_deps, hr1, hr2] at h
      | some r2 =>
        obtain ⟨a2, fs2, doc2⟩ := r2
        cases hr3 : lint_deps rest member doc2 with
        | none => simp [lint_deps, hr1, hr2, hr3] at h
        | some r3 =>
          obtain ⟨a3, fs3, doc3⟩ := r3
          simp only [lint_deps, hr1, hr2, hr3, Option.some.injEq, Prod.mk.injEq] at h
          obtain ⟨hb, hfs, hd⟩ := h
          subst hd
          have hnot1 : ∀ f ∈ fs1, f.dep_name ≠ n := by
            intro f hf
            exact hn f (by rw [← hfs]; exact List.mem_append_left _ hf)
          have hnot2 : ∀ f ∈ fs2, f.dep_name ≠ n := by
            intro f hf
            refine hn f ?_
            rw [← hfs]
            exact List.mem_append_right _ (List.mem_append_left _ hf)
          have hnot3 : ∀ f ∈ fs3, f.dep_name ≠ n := by
            intro f hf
            refine hn f ?_
            rw [← hfs]
            exact List.mem_append_right _ (List.mem_append_right _ hf)
          have F1 := lint_dep_table_frame name ws_dep member.dependencies "dependencies"
            "dependency" doc a1 fs1 doc1 hr1
          have F2 := lint_dep_table_frame name ws_dep member.dev_dependencies
            "dev-dependencies" "dev-dependency" doc1 a2 fs2 doc2 hr2
          have step1 : entryAt doc1 s n = entryAt doc s n := by
            by_cases hname : name = n
            · have hfs1nil : fs1 = [] := by
                cases hfs1 : fs1 with
                | nil => rfl
                | cons f fse =>
                  exfalso
                  have hmem : f ∈ fs1 := by rw [hfs1]; exact List.mem_cons_self f fse
                  exact hnot1 f hmem (hname ▸ F1.1 f hmem)
              exact F1.2.2 hfs1nil s n
            · exact F1.2.1 s n fun hsn => hname (hsn.2.symm ▸ rfl)
          have step2 : entryAt doc2 s n = entryAt doc1 s n := by
            by_cases hname : name = n
            · have hfs2nil : fs2 = [] := by
                cases hfs2 : fs2 with
                | nil => rfl
                | cons f fse =>
                  exfalso
                  have hmem : f ∈ fs2 := by rw [hfs2]; exact List.mem_cons_self f fse
                  exact hnot2 f hmem (hname ▸ F2.1 f hmem)
              exact F2.2.2 hfs2nil s n
            · exact F2.2.1 s n fun hsn => hname (hsn.2.symm ▸ rfl)
          have step3 : entryAt doc3 s n = entryAt doc2 s n :=
            ih member doc2 a3 fs3 doc3 hr3 n hnot3 s
          rw [step3, step2, step1]

/-- Root manifest sharing `alpha` (requiring feature `a`) and `bar`. -/
def c3_root : Manifest :=
  ⟨some ⟨[("alpha", Dependency.detailed ["a"]), ("bar", Dependency.simple "1")]⟩, [], [], []⟩

/-- A member document where `alpha` restates the shared feature `a`
(one finding) and `bar` is a clean inherited entry (no finding). -/
def c3_doc : Doc := ⟨[("dependencies",
  [("alpha", TomlValue.inlineTable false
    [("workspace", TomlValue.bool true),
      ("features", TomlValue.array [TomlValue.str "a"])]),
    ("bar", TomlValue.inlineTable false [("workspace", TomlValue.bool true)])])]⟩

/-- `c3_doc` after the structural fix: only `alpha`'s entry changed. -/
def c3_doc_fixed : Doc := ⟨[("dependencies",
  [("alpha", TomlValue.inlineTable false [("workspace", TomlValue.bool true)]),
    ("bar", TomlValue.inlineTable false [("workspace", TomlValue.bool true)])])]⟩

/-- C3 is false as stated: in `c3_doc` the only finding concerns
`alpha`, yet the emitted member text no longer contains the line
`bar = \x7b workspace = true \x7d` of the original — the global
` = \x7b workspace = true \x7d` to `.workspace = true` replacement of
`main.rs:55` rewrote a line with no finding. -/
theorem c3_counterexample_unrelated_line_rewritten :
    (lint_manifest c3_root (absManifest c3_doc) c3_doc).map (fun r => r.2.1.map Finding.dep_name)
      = some ["alpha"] ∧
    member_fix_text c3_root (absManifest c3_doc) c3_doc
      = some "[dependencies]\nalpha.workspace = true\nbar.workspace = true\n" ∧
    "bar = \x7b workspace = true \x7d" ∈ linesOf (Doc.render c3_doc) ∧
    "bar = \x7b workspace = true \x7d" ∉
      linesOf "[dependencies]\nalpha.workspace = true\nbar.workspace = true\n" := by
  refine ⟨rfl, rfl, by decide, by decide⟩

/-- C3 (amended): the fix stage is frame-preserving at the structural
level — the document entry of every dependency with no finding is
unchanged, in every section — but the emitted member text is the
mutated document's serialization with the two global textual
replacements of `main.rs:53-55` applied, which can rewrite lines that
contain no finding. -/
theorem c3_amended_frame_up_to_global_replaces :
    ∀ (root member : Manifest) (doc : Doc) (b : Bool) (fs : List Finding) (d2 : Doc),
    lint_manifest root member doc = some (b, fs, d2) →
    (∀ n, (∀ f ∈ fs, f.dep_name ≠ n) → ∀ s, entryAt d2 s n = entryAt doc s n) ∧
    member_fix_text root member doc = some (postProcessFixed (Doc.render d2)) := by
  intro root member doc b fs d2 h
  refine ⟨lint_deps_frame _ _ _ _ _ _ h, ?_⟩
  unfold member_fix_text
  rw [h]
  rfl

/-- C3 (amended) applied at the concrete input: `bar` has no finding
and its structured entry is untouched, while the final text is the
post-processed serialization. -/
theorem c3_amended_frame_up_to_global_replaces_witness :
    entryAt c3_doc_fixed "dependencies" "bar" = entryAt c3_doc "dependencies" "bar" ∧
    member_fix_text c3_root (absManifest c3_doc) c3_doc
      = some (postProcessFixed (Doc.render c3_doc_fixed)) := by
  have h := c3_amended_frame_up_to_global_replaces c3_root (absManifest c3_doc) c3_doc
    true [⟨"alpha", "dependency", FindingKind.redundantFeatures ["a"]⟩] c3_doc_fixed
    (by rfl)
  exact ⟨h.1 "bar" (by decide) "dependencies", h.2⟩

/-! ### The root-level unused-dependency fix -/

theorem tableRemove_keys_sublist (t : TomlTable) (k : String) :
    List.Sublist (((tableRemove t k).2).map Prod.fst) (t.map Prod.fst) := by
  cases hl : List.lookup k t with
  | none => simp [tableRemove, hl]
  | some v =>
    simp only [tableRemove, hl]
    exact List.Sublist.map Prod.fst (List.eraseP_sublist t)

theorem lookup_tableRemove_ne (t : TomlTable) (k n : String) (h : n ≠ k) :
    List.lookup n (tableRemove t k).2 = List.lookup n t := by
  cases hl : List.lookup k t with
  | none => simp [tableRemove, hl]
  | some v =>
    simp only [tableRemove, hl]
    exact lookup_eraseP_ne t k n h

theorem lookup_tableRemove_self (t : TomlTable) (k : String)
    (h : (t.map Prod.fst).Nodup) :
    List.lookup k (tableRemove t k).2 = none := by
  cases hl : List.lookup k t with
  | none => simp [tableRemove, hl]
  | some v =>
    simp only [tableRemove, hl]
    exact lookup_eraseP_self t k h

theorem tableRemove_keys_nodup (t : TomlTable) (k : String)
    (h : (t.map Prod.fst).Nodup) : (((tableRemove t k).2).map Prod.fst).Nodup :=
  List.Nodup.sublist (tableRemove_keys_sublist t k) h

theorem lookup_none_foldl_remove :
    ∀ (u : List String) (t : TomlTable) (n : String),
    List.lookup n t = none →
    List.lookup n (u.foldl (fun acc dep => (tableRemove acc dep).2) t) = none := by
  intro u
  induction u with
  | nil =>
    intro t n h
    exact h
  | cons d u ih =>
    intro t n h
    simp only [List.foldl_cons]
    refine ih _ n ?_
    cases hres : List.lookup n (tableRemove t d).2 with
    | none => rfl
    | some v =>
      exfalso
      have h1 : n ∈ ((tableRemove t d).2).map Prod.fst :=
        (lookup_isSome_iff_mem_keys _ n).mp (by simp [hres])
      have h2 : n ∈ t.map Prod.fst := (tableRemove_keys_sublist t d).subset h1
      have h3 := (lookup_isSome_iff_mem_keys t n).mpr h2
      rw [h] at h3
      simp at h3

theorem foldl_tableRemove_lookup :
    ∀ (u : List String) (t : TomlTable),
    (t.map Prod.fst).Nodup →
    (∀ n ∈ u, List.lookup n (u.foldl (fun acc dep => (tableRemove acc dep).2) t) = none) ∧
    (∀ n, n ∉ u → List.lookup n (u.foldl (fun acc dep => (tableRemove acc dep).2) t)
      = List.lookup n t) := by
  intro u
  induction u with
  | nil =>
    intro t h
    exact ⟨by simp, fun n _ => rfl⟩
  | cons d u ih =>
    intro t h
    have hnd2 := tableRemove_keys_nodup t d h
    obtain ⟨ih1, ih2⟩ := ih (tableRemove t d).2 hnd2
    constructor
    · intro n hn
      simp only [List.foldl_cons]
      rcases List.mem_cons.mp hn with rfl | hmem
      · exact lookup_none_foldl_remove u _ n (lookup_tableRemove_self t n h)
      · exact ih1 n hmem
    · intro n hn
      simp only [List.foldl_cons]
      have hne : n ≠ d := fun he => hn (he ▸ List.mem_cons_self d u)
      rw [ih2 n fun hm => hn (List.mem_cons_of_mem d hm)]
      exact lookup_tableRemove_ne t d n hne

/-- Root manifest sharing only `alpha`, which requires feature `a`. -/
def c5_root : Manifest := ⟨some ⟨[("alpha", Dependency.detailed ["a"])]⟩, [], [], []⟩

/-- A compactly formatted member document: fixing `alpha`'s redundant
feature leaves `...optional = true\x7d` with no space before the
brace. -/
def c5_member_doc : Doc := ⟨[("dependencies",
  [("alpha", TomlValue.inlineTable true
    [("workspace", TomlValue.bool true),
      ("features", TomlValue.array [TomlValue.str "a"]),
      ("optional", TomlValue.bool true)])])]⟩

/-- A root document whose shared table keeps a compactly formatted
entry and an unused `bar`. -/
def c5_root_doc : Doc := ⟨[("workspace.dependencies",
  [("keep", TomlValue.inlineTable true [("workspace", TomlValue.bool true)]),
    ("bar", TomlValue.str "1")])]⟩

/-- C5 is false as stated: the root fix serializes with no
post-processing at all (the collapsed `workspace = true\x7d` survives),
and even the member fix only rewrites the literal `workspace` flag —
a collapsed `optional = true\x7d` is left untouched. -/
theorem c5_counterexample_postprocessing_not_applied :
    root_fix_text c5_root_doc ["bar"]
      = some "[workspace.dependencies]\nkeep = \x7bworkspace = true\x7d\n" ∧
    hasSub "[workspace.dependencies]\nkeep = \x7bworkspace = true\x7d\n"
      "workspace = true\x7d" = true ∧
    member_fix_text c5_root (absManifest c5_member_doc) c5_member_doc
      = some "[dependencies]\nalpha = \x7bworkspace = true, optional = true\x7d\n" ∧
    hasSub "[dependencies]\nalpha = \x7bworkspace = true, optional = true\x7d\n"
      "optional = true\x7d" = true := by
  refine ⟨rfl, by decide, rfl, by decide⟩

/-- C5 (amended): only the member fix post-processes its serialized
text, applying exactly the two literal replacements for the
`workspace` flag; the root-document fix removes exactly the unused
keys (all of them, with all other entries untouched, on a
duplicate-free table) and writes the plain serialization of the
mutated root document with no post-processing. -/
theorem c5_amended_member_only_postprocessing :
    (∀ (root member : Manifest) (doc : Doc) (r : Bool × List Finding × Doc),
      lint_manifest root member doc = some r →
      member_fix_text root member doc = some (postProcessFixed (Doc.render r.2.2))) ∧
    (∀ (root_doc : Doc) (unused : List String) (t : TomlTable),
      List.lookup "workspace.dependencies" root_doc.sections = some t →
      root_fix_text root_doc unused
        = some (Doc.render (root_doc.setTable "workspace.dependencies"
            (unused.foldl (fun acc dep => (tableRemove acc dep).2) t))) ∧
      ((t.map Prod.fst).Nodup →
        (∀ n ∈ unused,
          List.lookup n (unused.foldl (fun acc dep => (tableRemove acc dep).2) t) = none) ∧
        (∀ n, n ∉ unused →
          List.lookup n (unused.foldl (fun acc dep => (tableRemove acc dep).2) t)
            = List.lookup n t))) := by
  constructor
  · intro root member doc r h
    unfold member_fix_text
    rw [h]
    rfl
  · intro root_doc unused t ht
    refine ⟨?_, fun hnd => foldl_tableRemove_lookup unused t hnd⟩
    unfold root_fix_text
    rw [ht]

/-- C5 (amended) applied at concrete inputs: the member output is the
post-processed serialization of the mutated member document, the root
output the plain serialization of the mutated root document. -/
theorem c5_amended_member_only_postprocessing_witness :
    member_fix_text c5_root (absManifest c5_member_doc) c5_member_doc
      = some (postProcessFixed (Doc.render (⟨[("dependencies",
          [("alpha", TomlValue.inlineTable true
            [("workspace", TomlValue.bool true),
              ("optional", TomlValue.bool true)])])]⟩ : Doc))) ∧
    root_fix_text c5_root_doc ["bar"]
      = some (Doc.render (c5_root_doc.setTable "workspace.dependencies"
          ((["bar"] : List String).foldl (fun acc dep => (tableRemove acc dep).2)
            [("keep", TomlValue.inlineTable true [("workspace", TomlValue.bool true)]),
              ("bar", TomlValue.str "1")]))) := by
  have h1 := c5_amended_member_only_postprocessing.1 c5_root (absManifest c5_member_doc)
    c5_member_doc
    (true, [⟨"alpha", "dependency", FindingKind.redundantFeatures ["a"]⟩],
      ⟨[("dependencies",
        [("alpha", TomlValue.inlineTable true
          [("workspace", TomlValue.bool true), ("optional", TomlValue.bool true)])])]⟩)
    (by rfl)
  have h2 := (c5_amended_member_only_postprocessing.2 c5_root_doc ["bar"]
    [("keep", TomlValue.inlineTable true [("workspace", TomlValue.bool true)]),
      ("bar", TomlValue.str "1")] (by rfl)).1
  exact ⟨h1, h2⟩
